import Mathlib

/-!
Verification of the two numeric primitives of the `hibachi` repository
(`src/hibachi/utils.py`): `project`, the randomized Duchi et al. (2008)
Euclidean projection onto the positive simplex, and `center`, the
double-centering of a square matrix.

The embedding works over exact rationals (`ℚ`); "within numeric tolerance"
statements of the specification become exact equalities.  Python exceptions
are modelled by `Except Err`: the two explicit `ValueError` precondition
checks of `project` become `Err.invalidShape` and `Err.invalidTarget`, the
shape mismatch `RuntimeError` raised by a torch matrix product becomes
`Err.shapeMismatch`, and a Python `ZeroDivisionError` becomes
`Err.zeroDivision`.

The randomized pivot `random.choice(tuple(U))` is modelled by an arbitrary
oracle `pick : Finset ℕ → ℕ`; every theorem below is universally quantified
over the oracle, so it covers every possible sequence of random pivots.
-/

namespace Hibachi

/-- Python exception outcomes relevant to `utils.py`.  `invalidShape` and
`invalidTarget` are the two explicit `ValueError` raises of `project`
(named as in the specification's error taxonomy); `shapeMismatch` is the
`RuntimeError` torch raises when a matrix product gets incompatible shapes;
`zeroDivision` is Python's `ZeroDivisionError`. -/
inductive Err where
  | invalidShape
  | invalidTarget
  | shapeMismatch
  | zeroDivision
  deriving DecidableEq

/-- Python evaluation of `v[j - 1]` for a one-dimensional tensor `v` and an
index `0 ≤ j < len(v)`: the index `-1` (when `j = 0`) wraps around to the
last element.  `(j + len v - 1) % len v` equals `j - 1` for `1 ≤ j < len v`
and `len v - 1` for `j = 0`. -/
def pyIdx (v : List ℚ) (j : ℕ) : ℚ :=
  v.getD ((j + v.length - 1) % v.length) 0

/-- The pivot `k = random.choice(tuple(U))` of one loop iteration of
`project`, modelled by an oracle `pick`.  `random.choice` always returns an
element of the (nonempty) set `U`; the `Finset.min'` fallback merely
totalizes the oracle so that the definition covers arbitrary functions
`pick` while keeping the guarantee `pivot pick U h ∈ U`. -/
def pivot (pick : Finset ℕ → ℕ) (U : Finset ℕ) (h : U.Nonempty) : ℕ :=
  if pick U ∈ U then pick U else U.min' h

/-- `G = {j for j in U if v[j - 1] >= v[k - 1]}` from `project`. -/
def Gset (v : List ℚ) (U : Finset ℕ) (k : ℕ) : Finset ℕ :=
  U.filter (fun j => pyIdx v k ≤ pyIdx v j)

/-- `L = {j for j in U if v[j - 1] < v[k - 1]}` from `project`. -/
def Lset (v : List ℚ) (U : Finset ℕ) (k : ℕ) : Finset ℕ :=
  U.filter (fun j => pyIdx v j < pyIdx v k)

/-- The `while U:` loop of `project` (lines 50-61 of `utils.py`), carrying
the accumulators `s` (sum of selected values, a float, here `ℚ`) and `p`
(count of selected values, an int, here `ℕ`) and returning their final
values.  One iteration picks the pivot `k`, forms `G` and `L`,
`delta_s = sum(v[j-1] for j in G)` and `delta_p = len(G)`, and either
accepts `G` (continuing on `L`) or rejects the pivot (continuing on
`G - {k}`). -/
def simplexLoop (v : List ℚ) (z : ℚ) (pick : Finset ℕ → ℕ)
    (U : Finset ℕ) (s : ℚ) (p : ℕ) : ℚ × ℕ :=
  if h : U.Nonempty then
    if (s + ∑ j in Gset v U (pivot pick U h), pyIdx v j)
        - ((p + (Gset v U (pivot pick U h)).card : ℕ) : ℚ)
          * pyIdx v (pivot pick U h) < z then
      simplexLoop v z pick (Lset v U (pivot pick U h))
        (s + ∑ j in Gset v U (pivot pick U h), pyIdx v j)
        (p + (Gset v U (pivot pick U h)).card)
    else
      simplexLoop v z pick ((Gset v U (pivot pick U h)).erase (pivot pick U h)) s p
  else (s, p)
termination_by U.card
decreasing_by
  · -- the continuation set `L` is a strict subset of `U`: the pivot is in
    -- `U` but never in `L` (its value is not `<` itself)
    apply Finset.card_lt_card
    refine (Finset.ssubset_iff_of_subset (Finset.filter_subset _ _)).2 ?_
    refine ⟨pivot pick U h, ?_, ?_⟩
    · unfold pivot
      split
      · assumption
      · exact U.min'_mem h
    · intro hmem
      exact absurd (Finset.mem_filter.1 hmem).2 (lt_irrefl _)
  · -- the continuation set `G \ {k}` is smaller than `U`: the pivot is in
    -- `G` (its value is `≥` itself) and gets erased
    have hkU : pivot pick U h ∈ U := by
      unfold pivot
      split
      · assumption
      · exact U.min'_mem h
    have hkG : pivot pick U h ∈ Gset v U (pivot pick U h) :=
      Finset.mem_filter.2 ⟨hkU, le_refl _⟩
    calc ((Gset v U (pivot pick U h)).erase (pivot pick U h)).card
        < (Gset v U (pivot pick U h)).card := Finset.card_erase_lt_of_mem hkG
      _ ≤ U.card := Finset.card_le_card (Finset.filter_subset _ _)

/-- Input tensors of `project`, as far as dimensionality is observable:
`project` only distinguishes one-dimensional tensors (vectors) from tensors
of any other dimensionality; a two-dimensional tensor stands for the
latter. -/
inductive Tensor where
  | vec : List ℚ → Tensor
  | mat : List (List ℚ) → Tensor

/-- `len(v.shape)`: the number of dimensions of a tensor. -/
def Tensor.dim : Tensor → ℕ
  | .vec _ => 1
  | .mat _ => 2

/-- `project(v, z)` from `utils.py` (lines 20-65): the two `ValueError`
precondition checks of lines 39-42, then the partition loop, then
`theta = (s - z) / p` (which raises `ZeroDivisionError` when `p = 0`,
reachable only for the empty vector) and
`w = [max(v[i - 1] - theta, 0) for i in range(1, n + 1)]`, which reads
`v[0], ..., v[n - 1]` in order. -/
def project (t : Tensor) (z : ℚ) (pick : Finset ℕ → ℕ) : Except Err (List ℚ) :=
  if t.dim ≠ 1 then .error .invalidShape
  else if z ≤ 0 then .error .invalidTarget
  else
    match t with
    | .mat _ => .error .invalidShape  -- unreachable: dim = 1 was checked
    | .vec v =>
      if (simplexLoop v z pick (Finset.range v.length) 0 0).2 = 0 then
        .error .zeroDivision
      else
        .ok (v.map fun x => max
          (x - ((simplexLoop v z pick (Finset.range v.length) 0 0).1 - z)
            / ((simplexLoop v z pick (Finset.range v.length) 0 0).2 : ℚ)) 0)

/-- The input vector sorted in non-increasing order, used by the sort-based
reference projection. -/
def sortDesc (v : List ℚ) : List ℚ :=
  v.insertionSort (fun a b => b ≤ a)

/-- Modelled from the spec: the defining inequality
`μ_j - (∑_{r ≤ j} μ_r - z) / j > 0` (with one-based `j` and `μ` the input
sorted in non-increasing order) of the sort-based reference
implementation's `ρ`. -/
def refPred (v : List ℚ) (z : ℚ) (j : ℕ) : Prop :=
  0 < (sortDesc v).getD (j - 1) 0
    - ((∑ r in Finset.range j, (sortDesc v).getD r 0) - z) / (j : ℚ)

instance (v : List ℚ) (z : ℚ) : DecidablePred (refPred v z) := fun j => by
  unfold refPred
  infer_instance

/-- Modelled from the spec: the specification's test plan cross-checks
`project` against "an O(n log n) sort-based reference implementation" (the
classical Figure 1 algorithm of Duchi et al. (2008), which the source cites)
whose code is not part of the repository.  `refRho` is its `ρ`: the largest
`1 ≤ ρ ≤ n` satisfying `refPred`. -/
def refRho (v : List ℚ) (z : ℚ) : ℕ :=
  Nat.findGreatest (refPred v z) v.length

/-- Modelled from the spec: the threshold `θ = (∑_{r ≤ ρ} μ_r - z) / ρ` of
the sort-based reference implementation. -/
def refTheta (v : List ℚ) (z : ℚ) : ℚ :=
  ((∑ r in Finset.range (refRho v z), (sortDesc v).getD r 0) - z) / (refRho v z : ℚ)

/-- Modelled from the spec: the output `w_i = max(v_i - θ, 0)` of the
sort-based reference implementation, in original input order. -/
def sortRef (v : List ℚ) (z : ℚ) : List ℚ :=
  v.map fun x => max (x - refTheta v z) 0

/-- Squared Euclidean distance between two vectors (of the first vector's
length), used to state that `project` returns the Euclidean-nearest point of
the simplex. -/
def sqDist (a b : List ℚ) : ℚ :=
  ∑ i in Finset.range a.length, (a.getD i 0 - b.getD i 0) ^ 2

/-- A matrix given entrywise: `r` rows, `c` columns, entry `f i j`.  All
torch operations used by `center` produce matrices of this shape. -/
def mkMat (r c : ℕ) (f : ℕ → ℕ → ℚ) : List (List ℚ) :=
  (List.range r).map fun i => (List.range c).map fun j => f i j

/-- Number of rows of a matrix (`len(X)` in Python). -/
def rows (X : List (List ℚ)) : ℕ := X.length

/-- Number of columns of a matrix (length of its first row). -/
def cols (X : List (List ℚ)) : ℕ := (X.headD []).length

/-- Entry `X[i][j]` of a matrix (0 outside the matrix). -/
def entry (X : List (List ℚ)) (i j : ℕ) : ℚ := (X.getD i []).getD j 0

/-- A matrix is rectangular: every row has the common column count. -/
def Rect (X : List (List ℚ)) : Prop := ∀ r ∈ X, r.length = cols X

/-- `torch.ones(n, m)`. -/
def ones (n m : ℕ) : List (List ℚ) := mkMat n m fun _ _ => 1

/-- Multiplication of a matrix by a scalar, elementwise. -/
def smul (c : ℚ) (X : List (List ℚ)) : List (List ℚ) :=
  mkMat (rows X) (cols X) fun i j => c * entry X i j

/-- Elementwise difference of two matrices of equal shape (shape taken from
the first operand; `center` only subtracts equally shaped matrices). -/
def matSub (A B : List (List ℚ)) : List (List ℚ) :=
  mkMat (rows A) (cols A) fun i j => entry A i j - entry B i j

/-- Elementwise sum of two matrices of equal shape. -/
def matAdd (A B : List (List ℚ)) : List (List ℚ) :=
  mkMat (rows A) (cols A) fun i j => entry A i j + entry B i j

/-- Matrix product `A @ B`.  torch raises a shape-mismatch `RuntimeError`
when the inner dimensions disagree. -/
def matMul (A B : List (List ℚ)) : Except Err (List (List ℚ)) :=
  if cols A = rows B then
    .ok (mkMat (rows A) (cols B) fun i j =>
      ∑ k in Finset.range (rows B), entry A i k * entry B k j)
  else .error .shapeMismatch

/-- `center(X)` from `utils.py` (lines 68-85):
`X - (1/n)*O @ X - (1/n)*X @ O + (1/pow(n,2))*O @ X @ O` with
`n = len(X)` and `O = torch.ones(n, n)`, evaluated in Python's
left-to-right order, so `((1/n)*O) @ X`, then the first subtraction, then
`((1/n)*X) @ O`, then the second subtraction, then `(((1/n²)*O) @ X) @ O`,
then the addition.  There is no squareness precondition check; when
`n = 0`, Python's `1 / n` raises `ZeroDivisionError` before any product. -/
def center (X : List (List ℚ)) : Except Err (List (List ℚ)) :=
  if X.length = 0 then .error .zeroDivision
  else
    let n : ℕ := X.length
    let O := ones n n
    (matMul (smul (1 / (n : ℚ)) O) X).bind fun t1 =>
      (matMul (smul (1 / (n : ℚ)) X) O).bind fun t2 =>
        (matMul (smul (1 / ((n : ℚ) ^ 2)) O) X).bind fun t3 =>
          (matMul t3 O).map fun t4 =>
            matAdd (matSub (matSub X t1) t2) t4

/-- Mean of row `i` of a square matrix, in the specification's words
(`rowMean[i]`). -/
def rowMean (X : List (List ℚ)) (i : ℕ) : ℚ :=
  (∑ j in Finset.range X.length, entry X i j) / (X.length : ℚ)

/-- Mean of column `j` of a square matrix, in the specification's words
(`colMean[j]`). -/
def colMean (X : List (List ℚ)) (j : ℕ) : ℚ :=
  (∑ i in Finset.range X.length, entry X i j) / (X.length : ℚ)

/-- Mean of all entries of a square matrix, in the specification's words
(`grandMean`). -/
def grandMean (X : List (List ℚ)) : ℚ :=
  (∑ i in Finset.range X.length, ∑ j in Finset.range X.length, entry X i j)
    / ((X.length : ℚ) ^ 2)

/-! ### Basic facts about the partition step -/

theorem pivot_mem (pick : Finset ℕ → ℕ) (U : Finset ℕ) (h : U.Nonempty) :
    pivot pick U h ∈ U := by
  unfold pivot
  split
  · assumption
  · exact U.min'_mem h

theorem mem_Gset {v : List ℚ} {U : Finset ℕ} {k j : ℕ} :
    j ∈ Gset v U k ↔ j ∈ U ∧ pyIdx v k ≤ pyIdx v j :=
  Finset.mem_filter

theorem mem_Lset {v : List ℚ} {U : Finset ℕ} {k j : ℕ} :
    j ∈ Lset v U k ↔ j ∈ U ∧ pyIdx v j < pyIdx v k :=
  Finset.mem_filter

theorem Gset_subset (v : List ℚ) (U : Finset ℕ) (k : ℕ) : Gset v U k ⊆ U :=
  Finset.filter_subset _ _

theorem Lset_subset (v : List ℚ) (U : Finset ℕ) (k : ℕ) : Lset v U k ⊆ U :=
  Finset.filter_subset _ _

theorem pivot_mem_Gset {v : List ℚ} {U : Finset ℕ} {k : ℕ} (hk : k ∈ U) :
    k ∈ Gset v U k :=
  mem_Gset.2 ⟨hk, le_refl _⟩

theorem pivot_not_mem_Lset {v : List ℚ} {U : Finset ℕ} {k : ℕ} :
    k ∉ Lset v U k := fun hmem =>
  absurd (mem_Lset.1 hmem).2 (lt_irrefl _)

theorem Gset_disjoint_Lset (v : List ℚ) (U : Finset ℕ) (k : ℕ) :
    Disjoint (Gset v U k) (Lset v U k) := by
  rw [Finset.disjoint_left]
  intro j hjG hjL
  exact absurd ((mem_Lset.1 hjL).2.trans_le (mem_Gset.1 hjG).2) (lt_irrefl _)

theorem mem_Gset_or_Lset {v : List ℚ} {U : Finset ℕ} {k j : ℕ} (hj : j ∈ U) :
    j ∈ Gset v U k ∨ j ∈ Lset v U k := by
  rcases le_or_lt (pyIdx v k) (pyIdx v j) with hle | hlt
  · exact Or.inl (mem_Gset.2 ⟨hj, hle⟩)
  · exact Or.inr (mem_Lset.2 ⟨hj, hlt⟩)

/-! ### Unfolding equations for the partition loop -/

theorem simplexLoop_empty (v : List ℚ) (z : ℚ) (pick : Finset ℕ → ℕ)
    {U : Finset ℕ} (h : ¬U.Nonempty) (s : ℚ) (p : ℕ) :
    simplexLoop v z pick U s p = (s, p) := by
  rw [simplexLoop]
  exact dif_neg h

theorem simplexLoop_accept (v : List ℚ) (z : ℚ) (pick : Finset ℕ → ℕ)
    {U : Finset ℕ} (h : U.Nonempty) (s : ℚ) (p : ℕ)
    (ht : (s + ∑ j in Gset v U (pivot pick U h), pyIdx v j)
      - ((p + (Gset v U (pivot pick U h)).card : ℕ) : ℚ)
        * pyIdx v (pivot pick U h) < z) :
    simplexLoop v z pick U s p =
      simplexLoop v z pick (Lset v U (pivot pick U h))
        (s + ∑ j in Gset v U (pivot pick U h), pyIdx v j)
        (p + (Gset v U (pivot pick U h)).card) := by
  rw [simplexLoop, dif_pos h, if_pos ht]

theorem simplexLoop_reject (v : List ℚ) (z : ℚ) (pick : Finset ℕ → ℕ)
    {U : Finset ℕ} (h : U.Nonempty) (s : ℚ) (p : ℕ)
    (ht : ¬((s + ∑ j in Gset v U (pivot pick U h), pyIdx v j)
      - ((p + (Gset v U (pivot pick U h)).card : ℕ) : ℚ)
        * pyIdx v (pivot pick U h) < z)) :
    simplexLoop v z pick U s p =
      simplexLoop v z pick
        ((Gset v U (pivot pick U h)).erase (pivot pick U h)) s p := by
  rw [simplexLoop, dif_pos h, if_neg ht]

/-! ### The main loop invariant

`simplexLoop_main` is proved by strong induction on the working set `U`.
The ghost set `A` records the indices already accepted into the
accumulators `(s, p)`; the conclusion exhibits the subset `B ⊆ U` that the
remaining iterations accept.  Writing `S = s + ∑_B`, `P = p + |B|` and
`θ = (S - z) / P` (kept in multiplied-out form below), the conclusion says:
every accepted value lies strictly above `θ` and every discarded value lies
at or below `θ`. -/

theorem simplexLoop_main (v : List ℚ) (z : ℚ) (pick : Finset ℕ → ℕ) (hz : 0 < z) :
    ∀ U A : Finset ℕ, ∀ s : ℚ, ∀ p : ℕ,
      Disjoint A U →
      s = ∑ j in A, pyIdx v j →
      p = A.card →
      (∀ a ∈ A, ∀ u ∈ U, pyIdx v u ≤ pyIdx v a) →
      (0 < p → ∀ a ∈ A, s - z < (p : ℚ) * pyIdx v a) →
      (U.Nonempty ∨ 0 < p) →
      ∃ B : Finset ℕ, B ⊆ U ∧
        simplexLoop v z pick U s p = (s + ∑ j in B, pyIdx v j, p + B.card) ∧
        0 < p + B.card ∧
        (∀ b ∈ B, (s + ∑ j in B, pyIdx v j) - z
          < ((p + B.card : ℕ) : ℚ) * pyIdx v b) ∧
        (∀ u ∈ U, u ∉ B → ((p + B.card : ℕ) : ℚ) * pyIdx v u
          ≤ (s + ∑ j in B, pyIdx v j) - z) ∧
        (∀ a ∈ A, (s + ∑ j in B, pyIdx v j) - z
          < ((p + B.card : ℕ) : ℚ) * pyIdx v a) := by
  intro U
  induction U using Finset.strongInduction with
  | _ U ih =>
    intro A s p hdisj hs hp hAU hI5 hne
    by_cases hU : U.Nonempty
    · by_cases htest : (s + ∑ j in Gset v U (pivot pick U hU), pyIdx v j)
          - ((p + (Gset v U (pivot pick U hU)).card : ℕ) : ℚ)
            * pyIdx v (pivot pick U hU) < z
      · -- accept branch: `G` is absorbed into the accumulators, continue on `L`
        rw [simplexLoop_accept v z pick hU s p htest]
        set k := pivot pick U hU with hkdef
        set G := Gset v U k with hGdef
        set L := Lset v U k with hLdef
        have hkU : k ∈ U := hkdef ▸ pivot_mem pick U hU
        have hkG : k ∈ G := pivot_mem_Gset hkU
        have hGU : G ⊆ U := Gset_subset v U k
        have hLU : L ⊆ U := Lset_subset v U k
        have hGL : Disjoint G L := Gset_disjoint_Lset v U k
        have hLss : L ⊂ U :=
          (Finset.ssubset_iff_of_subset hLU).2 ⟨k, hkU, pivot_not_mem_Lset⟩
        have hdpPos : 0 < G.card := Finset.card_pos.2 ⟨k, hkG⟩
        have hAG : Disjoint A G := hdisj.mono_right hGU
        have hsum2 : s + ∑ j in G, pyIdx v j = ∑ j in A ∪ G, pyIdx v j := by
          rw [Finset.sum_union hAG, hs]
        have hcard2 : p + G.card = (A ∪ G).card := by
          rw [Finset.card_union_of_disjoint hAG, hp]
        have hI2b : ∀ a ∈ A ∪ G, ∀ u ∈ L, pyIdx v u ≤ pyIdx v a := by
          intro a ha u hu
          rcases Finset.mem_union.1 ha with haA | haG
          · exact hAU a haA u (hLU hu)
          · exact le_trans (le_of_lt (mem_Lset.1 hu).2) (mem_Gset.1 haG).2
        have hppos2 : 0 < p + G.card := by omega
        have hI5b : 0 < p + G.card → ∀ a ∈ A ∪ G,
            (s + ∑ j in G, pyIdx v j) - z
              < ((p + G.card : ℕ) : ℚ) * pyIdx v a := by
          intro _ a ha
          have hkle : pyIdx v k ≤ pyIdx v a := by
            rcases Finset.mem_union.1 ha with haA | haG
            · exact hAU a haA k hkU
            · exact (mem_Gset.1 haG).2
          calc (s + ∑ j in G, pyIdx v j) - z
              < ((p + G.card : ℕ) : ℚ) * pyIdx v k := by linarith
            _ ≤ ((p + G.card : ℕ) : ℚ) * pyIdx v a :=
                mul_le_mul_of_nonneg_left hkle (Nat.cast_nonneg _)
        obtain ⟨B1, hB1L, heq, hpos, hBlt, hUle, hAlt⟩ :=
          ih L hLss (A ∪ G) (s + ∑ j in G, pyIdx v j) (p + G.card)
            (Finset.disjoint_union_left.2 ⟨hdisj.mono_right hLU, hGL⟩)
            hsum2 hcard2 hI2b hI5b (Or.inr hppos2)
        have hGB1 : Disjoint G B1 := hGL.mono_right hB1L
        have hSeq : s + ∑ j in G ∪ B1, pyIdx v j
            = (s + ∑ j in G, pyIdx v j) + ∑ j in B1, pyIdx v j := by
          rw [Finset.sum_union hGB1]; ring
        have hPeq : p + (G ∪ B1).card = (p + G.card) + B1.card := by
          rw [Finset.card_union_of_disjoint hGB1]; omega
        refine ⟨G ∪ B1, Finset.union_subset hGU (hB1L.trans hLU), ?_, ?_, ?_, ?_, ?_⟩
        · rw [heq, hSeq, hPeq]
        · omega
        · intro b hb
          rw [hSeq, hPeq]
          rcases Finset.mem_union.1 hb with hbG | hbB
          · exact hAlt b (Finset.mem_union_right A hbG)
          · exact hBlt b hbB
        · intro u huU huB
          rw [hSeq, hPeq]
          have huG : u ∉ G := fun hg => huB (Finset.mem_union_left _ hg)
          have huL : u ∈ L := (mem_Gset_or_Lset huU).resolve_left huG
          exact hUle u huL (fun hb => huB (Finset.mem_union_right _ hb))
        · intro a ha
          rw [hSeq, hPeq]
          exact hAlt a (Finset.mem_union_left _ ha)
      · -- reject branch: the pivot is dropped, continue on `G \ {k}`
        rw [simplexLoop_reject v z pick hU s p htest]
        set k := pivot pick U hU with hkdef
        set G := Gset v U k with hGdef
        have hkU : k ∈ U := hkdef ▸ pivot_mem pick U hU
        have hkG : k ∈ G := pivot_mem_Gset hkU
        have hGU : G ⊆ U := Gset_subset v U k
        have hGeU : G.erase k ⊆ U := (Finset.erase_subset _ _).trans hGU
        have hGess : G.erase k ⊂ U :=
          (Finset.ssubset_iff_of_subset hGeU).2 ⟨k, hkU, Finset.not_mem_erase _ _⟩
        have hne2 : (G.erase k).Nonempty ∨ 0 < p := by
          by_cases hp0 : 0 < p
          · exact Or.inr hp0
          · left
            have hA0 : A = ∅ := Finset.card_eq_zero.1 (by omega)
            have hs0 : s = 0 := by rw [hs, hA0, Finset.sum_empty]
            by_contra hGe
            have hGsingle : G = {k} := by
              rcases (Finset.erase_eq_empty_iff G k).1
                  (Finset.not_nonempty_iff_eq_empty.1 hGe) with h0 | h1
              · exact absurd (h0 ▸ hkG) (Finset.not_mem_empty k)
              · exact h1
            apply htest
            rw [hGsingle, Finset.sum_singleton, Finset.card_singleton, hs0]
            have hp0' : p = 0 := by omega
            rw [hp0']
            push_cast
            linarith
        obtain ⟨B1, hB1sub, heq, hpos, hBlt, hUle, hAlt⟩ :=
          ih (G.erase k) hGess A s p (hdisj.mono_right hGeU) hs hp
            (fun a ha u hu => hAU a ha u (hGeU hu)) hI5 hne2
        have hkey : ((p + B1.card : ℕ) : ℚ) * pyIdx v k
            ≤ (s + ∑ j in B1, pyIdx v j) - z := by
          by_cases hall : G.erase k ⊆ B1
          · have hBeq : B1 = G.erase k := Finset.Subset.antisymm hB1sub hall
            rw [hBeq]
            have hsum3 : (∑ j in G.erase k, pyIdx v j) + pyIdx v k
                = ∑ j in G, pyIdx v j := Finset.sum_erase_add G _ hkG
            have hcard3 : (G.erase k).card + 1 = G.card := Finset.card_erase_add_one hkG
            have hcast : ((p + G.card : ℕ) : ℚ)
                = ((p + (G.erase k).card : ℕ) : ℚ) + 1 := by
              rw [← hcard3]; push_cast; ring
            have htest2 : z ≤ (s + ∑ j in G, pyIdx v j)
                - ((p + G.card : ℕ) : ℚ) * pyIdx v k := not_lt.1 htest
            rw [hcast, ← hsum3] at htest2
            linarith
          · obtain ⟨u0, hu0mem, hu0B⟩ := Finset.not_subset.1 hall
            have hu0k : pyIdx v k ≤ pyIdx v u0 :=
              (mem_Gset.1 (Finset.mem_of_mem_erase hu0mem)).2
            calc ((p + B1.card : ℕ) : ℚ) * pyIdx v k
                ≤ ((p + B1.card : ℕ) : ℚ) * pyIdx v u0 :=
                  mul_le_mul_of_nonneg_left hu0k (Nat.cast_nonneg _)
              _ ≤ (s + ∑ j in B1, pyIdx v j) - z := hUle u0 hu0mem hu0B
        refine ⟨B1, hB1sub.trans hGeU, heq, hpos, hBlt, ?_, hAlt⟩
        intro u huU huB
        by_cases huGe : u ∈ G.erase k
        · exact hUle u huGe huB
        · have huk : pyIdx v u ≤ pyIdx v k := by
            by_cases huk' : u = k
            · exact le_of_eq (by rw [huk'])
            · have huG : u ∉ G := fun hg =>
                huGe (Finset.mem_erase.2 ⟨huk', hg⟩)
              have huL : u ∈ Lset v U k := (mem_Gset_or_Lset huU).resolve_left huG
              exact le_of_lt (mem_Lset.1 huL).2
          calc ((p + B1.card : ℕ) : ℚ) * pyIdx v u
              ≤ ((p + B1.card : ℕ) : ℚ) * pyIdx v k :=
                mul_le_mul_of_nonneg_left huk (Nat.cast_nonneg _)
            _ ≤ (s + ∑ j in B1, pyIdx v j) - z := hkey
    · -- the working set is empty: the loop returns `(s, p)` unchanged
      have hppos : 0 < p := hne.resolve_left hU
      have hUempty : U = ∅ := Finset.not_nonempty_iff_eq_empty.1 hU
      refine ⟨∅, Finset.empty_subset _, ?_, by simpa using hppos, ?_, ?_, ?_⟩
      · rw [simplexLoop_empty v z pick hU]
        simp
      · intro b hb
        exact absurd hb (Finset.not_mem_empty b)
      · intro u hu
        rw [hUempty] at hu
        exact absurd hu (Finset.not_mem_empty u)
      · intro a ha
        simpa using hI5 hppos a ha

/-- The top-level instance of the invariant: starting from `U = range n`,
`s = p = 0` (the entry state of `project`), the loop returns the sum and
cardinality of an accepted set `B`, with all accepted values strictly above
the threshold and all others at or below it. -/
theorem simplexLoop_range_spec (v : List ℚ) (z : ℚ) (pick : Finset ℕ → ℕ)
    (hz : 0 < z) (hv : v ≠ []) :
    ∃ B : Finset ℕ, B ⊆ Finset.range v.length ∧
      simplexLoop v z pick (Finset.range v.length) 0 0
        = (∑ j in B, pyIdx v j, B.card) ∧
      0 < B.card ∧
      (∀ b ∈ B, (∑ j in B, pyIdx v j) - z < (B.card : ℚ) * pyIdx v b) ∧
      (∀ u ∈ Finset.range v.length, u ∉ B →
        (B.card : ℚ) * pyIdx v u ≤ (∑ j in B, pyIdx v j) - z) := by
  have hn : (Finset.range v.length).Nonempty :=
    Finset.nonempty_range_iff.2 (List.length_pos.2 hv).ne'
  obtain ⟨B, hsub, heq, hpos, hBlt, hUle, _⟩ :=
    simplexLoop_main v z pick hz (Finset.range v.length) ∅ 0 0
      (Finset.disjoint_empty_left _) (by simp) (by simp)
      (by simp) (by simp) (Or.inl hn)
  refine ⟨B, hsub, by simpa using heq, by simpa using hpos, ?_, ?_⟩
  · intro b hb
    simpa using hBlt b hb
  · intro u hu hub
    simpa using hUle u hu hub

/-- The sum of a list is the sum of its `getD` values over `range length`. -/
theorem list_sum_eq_range_sum (l : List ℚ) :
    l.sum = ∑ i in Finset.range l.length, l.getD i 0 := by
  induction l with
  | nil => simp
  | cons a t ih =>
      rw [List.sum_cons, List.length_cons, Finset.sum_range_succ', ih]
      simp [add_comm]

/-- `getD` through `map`, inside the length. -/
theorem getD_map (f : ℚ → ℚ) (v : List ℚ) {i : ℕ} (hi : i < v.length) :
    (v.map f).getD i 0 = f (v.getD i 0) := by
  rw [List.getD_eq_getElem _ _ (by simpa using hi),
    List.getD_eq_getElem _ _ hi, List.getElem_map]

/-- Summing `g ((j + n - 1) % n)` over `range n` is summing `g` over
`range n`: the cyclic index shift performed by Python's `v[j - 1]` accesses
is a bijection of the index range. -/
theorem sum_range_shift (n : ℕ) (g : ℕ → ℚ) :
    ∑ j in Finset.range n, g ((j + n - 1) % n) = ∑ i in Finset.range n, g i := by
  rcases Nat.eq_zero_or_pos n with h0 | hpos
  · simp [h0]
  · refine Finset.sum_nbij' (fun j => (j + n - 1) % n) (fun i => (i + 1) % n)
      (fun a _ => Finset.mem_range.2 (Nat.mod_lt _ hpos))
      (fun a _ => Finset.mem_range.2 (Nat.mod_lt _ hpos)) ?_ ?_ (fun a _ => rfl)
    · intro a ha
      have ha' : a < n := Finset.mem_range.1 ha
      dsimp only
      match a, ha' with
      | 0, ha' =>
          have h1 : (0 + n - 1) % n = n - 1 := by
            rw [Nat.zero_add, Nat.mod_eq_of_lt (by omega)]
          rw [h1, Nat.sub_add_cancel hpos, Nat.mod_self]
      | b + 1, ha' =>
          have h1 : b + 1 + n - 1 = b + n := by omega
          have h2 : b % n = b := Nat.mod_eq_of_lt (by omega)
          rw [h1, Nat.add_mod_right, h2, Nat.mod_eq_of_lt ha']
    · intro a ha
      have ha' : a < n := Finset.mem_range.1 ha
      dsimp only
      by_cases hc : a + 1 = n
      · have h2 : (a + 1) % n = 0 := by rw [hc, Nat.mod_self]
        rw [h2, Nat.zero_add, Nat.mod_eq_of_lt (show n - 1 < n by omega)]
        omega
      · have h2 : (a + 1) % n = a + 1 := Nat.mod_eq_of_lt (by omega)
        have h1 : a + 1 + n - 1 = a + n := by omega
        rw [h2, h1, Nat.add_mod_right, Nat.mod_eq_of_lt ha']

/-- At loop exit, `p` is positive and the threshold `θ = (s - z) / p`
satisfies `∑ i max(v_i - θ, 0) = z` — the defining equation of the simplex
projection threshold. -/
theorem loop_theta (v : List ℚ) (z : ℚ) (pick : Finset ℕ → ℕ)
    (hz : 0 < z) (hv : v ≠ []) :
    0 < (simplexLoop v z pick (Finset.range v.length) 0 0).2 ∧
      ∑ i in Finset.range v.length,
        max (v.getD i 0
          - ((simplexLoop v z pick (Finset.range v.length) 0 0).1 - z)
            / ((simplexLoop v z pick (Finset.range v.length) 0 0).2 : ℚ)) 0 = z := by
  obtain ⟨B, hsub, heq, hpos, hBlt, hUle⟩ := simplexLoop_range_spec v z pick hz hv
  rw [heq]
  refine ⟨hpos, ?_⟩
  show ∑ i in Finset.range v.length,
    max (v.getD i 0 - ((∑ j in B, pyIdx v j) - z) / (B.card : ℚ)) 0 = z
  have hcpos : (0 : ℚ) < (B.card : ℚ) := by exact_mod_cast hpos
  have hcne : (B.card : ℚ) ≠ 0 := ne_of_gt hcpos
  set θ : ℚ := ((∑ j in B, pyIdx v j) - z) / (B.card : ℚ) with hθ
  have hshift : ∑ i in Finset.range v.length, max (v.getD i 0 - θ) 0
      = ∑ j in Finset.range v.length, max (pyIdx v j - θ) 0 := by
    rw [← sum_range_shift v.length (fun i => max (v.getD i 0 - θ) 0)]
    exact Finset.sum_congr rfl (fun j _ => by simp only [pyIdx])
  rw [hshift, ← Finset.sum_sdiff hsub]
  have hzero : ∑ j in Finset.range v.length \ B, max (pyIdx v j - θ) 0 = 0 := by
    refine Finset.sum_eq_zero ?_
    intro u hu
    have hu' := Finset.mem_sdiff.1 hu
    have hle : pyIdx v u ≤ θ := by
      rw [hθ, le_div_iff hcpos]
      calc pyIdx v u * (B.card : ℚ) = (B.card : ℚ) * pyIdx v u := by ring
        _ ≤ (∑ j in B, pyIdx v j) - z := hUle u hu'.1 hu'.2
    have hle0 : pyIdx v u - θ ≤ (0 : ℚ) := by linarith
    exact max_eq_right hle0
  have hterm : ∀ b ∈ B, max (pyIdx v b - θ) 0 = pyIdx v b - θ := by
    intro b hb
    have hlt : θ < pyIdx v b := by
      rw [hθ, div_lt_iff hcpos]
      calc (∑ j in B, pyIdx v j) - z < (B.card : ℚ) * pyIdx v b := hBlt b hb
        _ = pyIdx v b * (B.card : ℚ) := by ring
    have h0le : (0 : ℚ) ≤ pyIdx v b - θ := by linarith
    exact max_eq_left h0le
  have hBsum : ∑ j in B, max (pyIdx v j - θ) 0
      = (∑ j in B, pyIdx v j) - (B.card : ℚ) * θ := by
    rw [Finset.sum_congr rfl hterm, Finset.sum_sub_distrib,
      Finset.sum_const, nsmul_eq_mul]
  rw [hzero, hBsum, hθ]
  field_simp

/-- The master form of a successful `project` call: the output is
`max (v_i - θ, 0)` entrywise (in input order) for a threshold `θ` whose
clipped values sum to exactly `z`. -/
theorem project_ok_form (v : List ℚ) (z : ℚ) (pick : Finset ℕ → ℕ)
    (hz : 0 < z) (hv : v ≠ []) :
    ∃ θ : ℚ, project (.vec v) z pick = .ok (v.map fun x => max (x - θ) 0) ∧
      ∑ i in Finset.range v.length, max (v.getD i 0 - θ) 0 = z := by
  obtain ⟨hp, hsum⟩ := loop_theta v z pick hz hv
  refine ⟨_, ?_, hsum⟩
  unfold project
  rw [if_neg (by simp [Tensor.dim]), if_neg (not_le.2 hz)]
  exact if_neg hp.ne'

/-! ### The output is the Euclidean-nearest simplex point -/

/-- Pointwise inequality behind the variational characterization of the
projection: clipping at threshold `θ` can only move closer to any
non-negative `u`, up to the linear correction term `2θ(w - u)`. -/
theorem clip_sq_ineq (a u θ : ℚ) (hu : 0 ≤ u) :
    (a - max (a - θ) 0) ^ 2 + 2 * θ * (max (a - θ) 0 - u) ≤ (a - u) ^ 2 := by
  rcases le_total (a - θ) 0 with hle | hge
  · rw [max_eq_right hle]
    nlinarith [sq_nonneg u, mul_nonneg hu (show (0 : ℚ) ≤ θ - a by linarith)]
  · rw [max_eq_left hge]
    nlinarith [sq_nonneg (a - u - θ)]

/-- The list sum of the clipped output in terms of the range sum. -/
theorem map_max_sum (v : List ℚ) (θ z : ℚ)
    (h : ∑ i in Finset.range v.length, max (v.getD i 0 - θ) 0 = z) :
    (v.map fun x => max (x - θ) 0).sum = z := by
  rw [list_sum_eq_range_sum, List.length_map]
  rw [← h]
  refine Finset.sum_congr rfl ?_
  intro i hi
  exact getD_map (fun x => max (x - θ) 0) v (Finset.mem_range.1 hi)

/-- Every element of the clipped output is non-negative. -/
theorem map_max_nonneg (v : List ℚ) (θ : ℚ) :
    ∀ x ∈ v.map fun y => max (y - θ) 0, 0 ≤ x := by
  intro x hx
  obtain ⟨y, _, rfl⟩ := List.mem_map.1 hx
  exact le_max_right _ _

/-- The clipped vector `max (v_i - θ, 0)` whose entries sum to `z` is at
least as close to `v` (in squared Euclidean distance) as any other
non-negative vector of the same length summing to `z`. -/
theorem clip_nearest (v : List ℚ) (θ z : ℚ)
    (hsum : ∑ i in Finset.range v.length, max (v.getD i 0 - θ) 0 = z)
    (u : List ℚ) (hlen : u.length = v.length) (hnn : ∀ x ∈ u, 0 ≤ x)
    (husum : u.sum = z) :
    sqDist v (v.map fun x => max (x - θ) 0) ≤ sqDist v u := by
  have hugetD : ∀ i ∈ Finset.range v.length, 0 ≤ u.getD i 0 := by
    intro i hi
    have hi' : i < u.length := by rw [hlen]; exact Finset.mem_range.1 hi
    rw [List.getD_eq_getElem _ _ hi']
    exact hnn _ (List.getElem_mem hi')
  have husum2 : ∑ i in Finset.range v.length, u.getD i 0 = z := by
    rw [← hlen, ← list_sum_eq_range_sum]
    exact husum
  have hpt : ∀ i ∈ Finset.range v.length,
      (v.getD i 0 - max (v.getD i 0 - θ) 0) ^ 2
        + 2 * θ * (max (v.getD i 0 - θ) 0 - u.getD i 0)
      ≤ (v.getD i 0 - u.getD i 0) ^ 2 := by
    intro i hi
    exact clip_sq_ineq (v.getD i 0) (u.getD i 0) θ (hugetD i hi)
  have hsums := Finset.sum_le_sum hpt
  rw [Finset.sum_add_distrib, ← Finset.mul_sum, Finset.sum_sub_distrib,
    hsum, husum2, sub_self, mul_zero, add_zero] at hsums
  unfold sqDist
  calc ∑ i in Finset.range v.length,
        (v.getD i 0 - (v.map fun x => max (x - θ) 0).getD i 0) ^ 2
      = ∑ i in Finset.range v.length,
        (v.getD i 0 - max (v.getD i 0 - θ) 0) ^ 2 := by
        refine Finset.sum_congr rfl ?_
        intro i hi
        rw [getD_map _ _ (Finset.mem_range.1 hi)]
    _ ≤ ∑ i in Finset.range v.length, (v.getD i 0 - u.getD i 0) ^ 2 := hsums

/-- Uniqueness of the projection threshold: two thresholds whose clipped
values both sum to the same positive `z` coincide. -/
theorem theta_unique {w : List ℚ} {z θ₁ θ₂ : ℚ} (hz : 0 < z)
    (h1 : ∑ i in Finset.range w.length, max (w.getD i 0 - θ₁) 0 = z)
    (h2 : ∑ i in Finset.range w.length, max (w.getD i 0 - θ₂) 0 = z) :
    θ₁ = θ₂ := by
  have key : ∀ a b : ℚ, a < b →
      ∑ i in Finset.range w.length, max (w.getD i 0 - b) 0 = z →
      z < ∑ i in Finset.range w.length, max (w.getD i 0 - a) 0 := by
    intro a b hab hbz
    have hwit : ∃ i ∈ Finset.range w.length,
        (0 : ℚ) < max (w.getD i 0 - b) 0 := by
      by_contra hno
      push_neg at hno
      have : ∑ i in Finset.range w.length, max (w.getD i 0 - b) 0 ≤ 0 := by
        refine Finset.sum_nonpos ?_
        intro i hi
        exact hno i hi
      linarith
    obtain ⟨i0, hi0, hpos⟩ := hwit
    refine lt_of_le_of_lt (le_of_eq hbz.symm) (Finset.sum_lt_sum ?_ ⟨i0, hi0, ?_⟩)
    · intro i _
      exact max_le_max (by linarith) (le_refl 0)
    · have hb0 : max (w.getD i0 0 - b) 0 = w.getD i0 0 - b := by
        rcases le_total (w.getD i0 0 - b) 0 with hle | hge
        · rw [max_eq_right hle] at hpos
          exact absurd hpos (lt_irrefl 0)
        · exact max_eq_left hge
      have hbi : b < w.getD i0 0 := by
        rw [hb0] at hpos
        linarith
      calc max (w.getD i0 0 - b) 0 = w.getD i0 0 - b := hb0
        _ < w.getD i0 0 - a := by linarith
        _ ≤ max (w.getD i0 0 - a) 0 := le_max_left _ _
  rcases lt_trichotomy θ₁ θ₂ with h | h | h
  · exact absurd h1 (ne_of_gt (key θ₁ θ₂ h h2))
  · exact h
  · exact absurd h2 (ne_of_gt (key θ₂ θ₁ h h1))

/-! ### Correctness of the sort-based reference implementation -/

theorem sortDesc_sorted (v : List ℚ) : (sortDesc v).Sorted (fun a b => b ≤ a) :=
  List.sorted_insertionSort _ v

theorem sortDesc_length (v : List ℚ) : (sortDesc v).length = v.length :=
  List.length_insertionSort _ v

theorem sortDesc_anti (v : List ℚ) {i j : ℕ} (hij : i ≤ j)
    (hj : j < (sortDesc v).length) :
    (sortDesc v).getD j 0 ≤ (sortDesc v).getD i 0 := by
  rcases eq_or_lt_of_le hij with heq | hlt
  · rw [heq]
  · rw [List.getD_eq_getElem _ _ hj, List.getD_eq_getElem _ _ (lt_trans hlt hj)]
    have := (sortDesc_sorted v).rel_get_of_lt
      (a := ⟨i, lt_trans hlt hj⟩) (b := ⟨j, hj⟩) hlt
    simpa using this

theorem refPred_one {v : List ℚ} {z : ℚ} (hz : 0 < z) :
    refPred v z 1 := by
  unfold refPred
  rw [Finset.sum_range_one]
  push_cast
  rw [div_one]
  linarith

theorem refRho_pos {v : List ℚ} {z : ℚ} (hz : 0 < z) (hv : v ≠ []) :
    1 ≤ refRho v z :=
  Nat.le_findGreatest (List.length_pos.2 hv) (refPred_one hz)

theorem refRho_le (v : List ℚ) (z : ℚ) : refRho v z ≤ v.length :=
  Nat.findGreatest_le _

theorem refPred_refRho {v : List ℚ} {z : ℚ} (hz : 0 < z) (hv : v ≠ []) :
    refPred v z (refRho v z) :=
  Nat.findGreatest_spec (List.length_pos.2 hv) (refPred_one hz)

/-- The value just above the reference threshold index is at most the
threshold: maximality of `ρ` in the sorted order. -/
theorem refRho_succ_le {v : List ℚ} {z : ℚ} (hz : 0 < z) (hv : v ≠ [])
    (hlt : refRho v z < v.length) :
    (sortDesc v).getD (refRho v z) 0 ≤ refTheta v z := by
  have hρ1 : 1 ≤ refRho v z := refRho_pos hz hv
  have hρQ : (0 : ℚ) < (refRho v z : ℚ) := by exact_mod_cast hρ1
  have hnot : ¬refPred v z (refRho v z + 1) :=
    Nat.findGreatest_is_greatest (Nat.lt_succ_self _) hlt
  unfold refPred at hnot
  rw [not_lt, Nat.add_sub_cancel, Finset.sum_range_succ] at hnot
  have hnot2 : (sortDesc v).getD (refRho v z) 0
      ≤ ((∑ r in Finset.range (refRho v z), (sortDesc v).getD r 0)
        + (sortDesc v).getD (refRho v z) 0 - z) / ((refRho v z : ℚ) + 1) := by
    rw [sub_nonpos] at hnot
    calc (sortDesc v).getD (refRho v z) 0
        ≤ ((∑ r in Finset.range (refRho v z), (sortDesc v).getD r 0)
          + (sortDesc v).getD (refRho v z) 0 - z) / ((refRho v z + 1 : ℕ) : ℚ) :=
          hnot
      _ = _ := by push_cast; ring_nf
  rw [le_div_iff (by linarith)] at hnot2
  unfold refTheta
  rw [le_div_iff hρQ]
  linarith

/-- The value at the reference threshold index is strictly above the
threshold. -/
theorem refTheta_lt {v : List ℚ} {z : ℚ} (hz : 0 < z) (hv : v ≠ []) :
    refTheta v z < (sortDesc v).getD (refRho v z - 1) 0 := by
  have h := refPred_refRho hz hv
  unfold refPred at h
  unfold refTheta
  linarith

/-- Range sums of the clipped map, as a list sum. -/
theorem range_sum_eq_map_sum (v : List ℚ) (θ : ℚ) :
    ∑ i in Finset.range v.length, max (v.getD i 0 - θ) 0
      = (v.map fun x => max (x - θ) 0).sum := by
  rw [list_sum_eq_range_sum, List.length_map]
  refine Finset.sum_congr rfl ?_
  intro i hi
  rw [getD_map _ _ (Finset.mem_range.1 hi)]

/-- The clipped values of the reference threshold sum to exactly `z`. -/
theorem sortRef_theta_sum (v : List ℚ) (z : ℚ) (hz : 0 < z) (hv : v ≠ []) :
    ∑ i in Finset.range v.length, max (v.getD i 0 - refTheta v z) 0 = z := by
  have hρ1 : 1 ≤ refRho v z := refRho_pos hz hv
  have hρn : refRho v z ≤ v.length := refRho_le v z
  have hρQ : (0 : ℚ) < (refRho v z : ℚ) := by exact_mod_cast hρ1
  -- pass to the sorted vector
  have hperm : ∑ i in Finset.range v.length, max (v.getD i 0 - refTheta v z) 0
      = ∑ i in Finset.range v.length,
          max ((sortDesc v).getD i 0 - refTheta v z) 0 := by
    rw [range_sum_eq_map_sum, ← sortDesc_length v, range_sum_eq_map_sum]
    exact (List.Perm.sum_eq (List.Perm.map _ (List.perm_insertionSort _ v))).symm
  rw [hperm]
  -- split at ρ
  have hsplit : ∑ i in Finset.range v.length,
        max ((sortDesc v).getD i 0 - refTheta v z) 0
      = (∑ i in Finset.range (refRho v z),
          max ((sortDesc v).getD i 0 - refTheta v z) 0)
        + ∑ i in Finset.Ico (refRho v z) v.length,
            max ((sortDesc v).getD i 0 - refTheta v z) 0 :=
    (Finset.sum_range_add_sum_Ico _ hρn).symm
  rw [hsplit]
  have htail : ∑ i in Finset.Ico (refRho v z) v.length,
      max ((sortDesc v).getD i 0 - refTheta v z) 0 = 0 := by
    refine Finset.sum_eq_zero ?_
    intro i hi
    obtain ⟨hi1, hi2⟩ := Finset.mem_Ico.1 hi
    have hρlt : refRho v z < v.length := lt_of_le_of_lt hi1 hi2
    have hle : (sortDesc v).getD i 0 ≤ (sortDesc v).getD (refRho v z) 0 :=
      sortDesc_anti v hi1 (by rw [sortDesc_length]; exact hi2)
    have := refRho_succ_le hz hv hρlt
    exact max_eq_right (by linarith)
  have hhead : ∀ i ∈ Finset.range (refRho v z),
      max ((sortDesc v).getD i 0 - refTheta v z) 0
        = (sortDesc v).getD i 0 - refTheta v z := by
    intro i hi
    have hi' : i < refRho v z := Finset.mem_range.1 hi
    have hile : i ≤ refRho v z - 1 := by omega
    have hlt2 : refRho v z - 1 < (sortDesc v).length := by
      rw [sortDesc_length]; omega
    have hge : (sortDesc v).getD (refRho v z - 1) 0 ≤ (sortDesc v).getD i 0 :=
      sortDesc_anti v hile hlt2
    have := refTheta_lt hz hv
    exact max_eq_left (by linarith)
  rw [htail, add_zero, Finset.sum_congr rfl hhead, Finset.sum_sub_distrib,
    Finset.sum_const, Finset.card_range, nsmul_eq_mul]
  unfold refTheta
  field_simp

/-! ### Matrix infrastructure for `center` -/

theorem rows_mkMat (r c : ℕ) (f : ℕ → ℕ → ℚ) : rows (mkMat r c f) = r := by
  simp [rows, mkMat]

theorem cols_mkMat (r c : ℕ) (f : ℕ → ℕ → ℚ) (hr : 0 < r) :
    cols (mkMat r c f) = c := by
  obtain ⟨r1, rfl⟩ : ∃ r1, r = r1 + 1 := ⟨r - 1, by omega⟩
  simp [cols, mkMat, List.range_succ_eq_map]

theorem entry_mkMat {r c i j : ℕ} (f : ℕ → ℕ → ℚ) (hi : i < r) (hj : j < c) :
    entry (mkMat r c f) i j = f i j := by
  have hrow : (mkMat r c f).getD i [] = (List.range c).map (f i) := by
    unfold mkMat
    rw [List.getD_eq_getElem _ _ (by simpa using hi)]
    rw [List.getElem_map, List.getElem_range]
  unfold entry
  rw [hrow, List.getD_eq_getElem _ _ (by simpa using hj)]
  rw [List.getElem_map, List.getElem_range]

theorem mkMat_congr {r c : ℕ} {f g : ℕ → ℕ → ℚ}
    (h : ∀ i < r, ∀ j < c, f i j = g i j) : mkMat r c f = mkMat r c g := by
  unfold mkMat
  refine List.map_congr_left ?_
  intro i hi
  refine List.map_congr_left ?_
  intro j hj
  exact h i (List.mem_range.1 hi) j (List.mem_range.1 hj)

theorem rows_ones (n m : ℕ) : rows (ones n m) = n := rows_mkMat n m _

theorem cols_ones (n m : ℕ) (hn : 0 < n) : cols (ones n m) = m :=
  cols_mkMat n m _ hn

theorem entry_ones {n m i j : ℕ} (hi : i < n) (hj : j < m) :
    entry (ones n m) i j = 1 := entry_mkMat _ hi hj

theorem rows_smul (c : ℚ) (X : List (List ℚ)) : rows (smul c X) = rows X :=
  rows_mkMat _ _ _

theorem cols_smul (c : ℚ) (X : List (List ℚ)) (h : 0 < rows X) :
    cols (smul c X) = cols X := cols_mkMat _ _ _ h

theorem entry_smul (c : ℚ) (X : List (List ℚ)) {i j : ℕ}
    (hi : i < rows X) (hj : j < cols X) :
    entry (smul c X) i j = c * entry X i j := entry_mkMat _ hi hj

theorem matMul_ok {A B : List (List ℚ)} (h : cols A = rows B) :
    matMul A B = .ok (mkMat (rows A) (cols B) fun i j =>
      ∑ k in Finset.range (rows B), entry A i k * entry B k j) := by
  unfold matMul
  rw [if_pos h]

/-- `center` on a square matrix succeeds and computes, entrywise, exactly
`X[i][j] - rowMean[i] - colMean[j] + grandMean`. -/
theorem center_ok (X : List (List ℚ)) (hn : 0 < X.length)
    (hsq : cols X = X.length) :
    center X = .ok (mkMat X.length X.length fun i j =>
      entry X i j - rowMean X i - colMean X j + grandMean X) := by
  have hrX : rows X = X.length := rfl
  have h01 : matMul (smul (1 / (X.length : ℚ)) (ones X.length X.length)) X
      = .ok (mkMat X.length X.length fun i j =>
        ∑ k in Finset.range X.length,
          entry (smul (1 / (X.length : ℚ)) (ones X.length X.length)) i k
            * entry X k j) := by
    rw [matMul_ok (by rw [cols_smul _ _ (by rw [rows_ones]; exact hn),
      cols_ones _ _ hn, hrX])]
    rw [rows_smul, rows_ones, hrX, hsq]
  have h02 : matMul (smul (1 / (X.length : ℚ)) X) (ones X.length X.length)
      = .ok (mkMat X.length X.length fun i j =>
        ∑ k in Finset.range X.length,
          entry (smul (1 / (X.length : ℚ)) X) i k
            * entry (ones X.length X.length) k j) := by
    rw [matMul_ok (by rw [cols_smul _ _ (by rw [hrX]; exact hn), hsq,
      rows_ones])]
    rw [rows_smul, hrX, cols_ones _ _ hn, rows_ones]
  have h03 : matMul (smul (1 / (X.length : ℚ) ^ 2) (ones X.length X.length)) X
      = .ok (mkMat X.length X.length fun i j =>
        ∑ k in Finset.range X.length,
          entry (smul (1 / (X.length : ℚ) ^ 2) (ones X.length X.length)) i k
            * entry X k j) := by
    rw [matMul_ok (by rw [cols_smul _ _ (by rw [rows_ones]; exact hn),
      cols_ones _ _ hn, hrX])]
    rw [rows_smul, rows_ones, hrX, hsq]
  have h04 : matMul (mkMat X.length X.length fun i j =>
        ∑ k in Finset.range X.length,
          entry (smul (1 / (X.length : ℚ) ^ 2) (ones X.length X.length)) i k
            * entry X k j) (ones X.length X.length)
      = .ok (mkMat X.length X.length fun i j =>
        ∑ k in Finset.range X.length,
          entry (mkMat X.length X.length fun i j =>
            ∑ k in Finset.range X.length,
              entry (smul (1 / (X.length : ℚ) ^ 2) (ones X.length X.length)) i k
                * entry X k j) i k
            * entry (ones X.length X.length) k j) := by
    rw [matMul_ok (by rw [cols_mkMat _ _ _ hn, rows_ones])]
    rw [rows_mkMat, rows_ones, cols_ones _ _ hn]
  unfold center
  rw [if_neg (by omega)]
  show (matMul (smul (1 / (X.length : ℚ)) (ones X.length X.length)) X).bind _
      = _
  rw [h01]
  show (matMul (smul (1 / (X.length : ℚ)) X) (ones X.length X.length)).bind _
      = _
  rw [h02]
  show (matMul (smul (1 / (X.length : ℚ) ^ 2)
      (ones X.length X.length)) X).bind _ = _
  rw [h03]
  show Except.map _ (matMul _ (ones X.length X.length)) = _
  rw [h04]
  show Except.ok _ = _
  congr 1
  -- the remaining goal: the assembled `matAdd (matSub (matSub ...))`
  -- equals the row/column-mean form, entry by entry
  have hT1 : ∀ i < X.length, ∀ j < X.length,
      entry (mkMat X.length X.length fun i j =>
        ∑ k in Finset.range X.length,
          entry (smul (1 / (X.length : ℚ)) (ones X.length X.length)) i k
            * entry X k j) i j
      = (1 / (X.length : ℚ)) * ∑ k in Finset.range X.length, entry X k j := by
    intro i hi j hj
    rw [entry_mkMat _ hi hj, Finset.mul_sum]
    refine Finset.sum_congr rfl ?_
    intro k hk
    rw [entry_smul _ _ (by rw [rows_ones]; exact hi)
        (by rw [cols_ones _ _ hn]; exact Finset.mem_range.1 hk),
      entry_ones hi (Finset.mem_range.1 hk), mul_one]
  have hT2 : ∀ i < X.length, ∀ j < X.length,
      entry (mkMat X.length X.length fun i j =>
        ∑ k in Finset.range X.length,
          entry (smul (1 / (X.length : ℚ)) X) i k
            * entry (ones X.length X.length) k j) i j
      = (1 / (X.length : ℚ)) * ∑ k in Finset.range X.length, entry X i k := by
    intro i hi j hj
    rw [entry_mkMat _ hi hj, Finset.mul_sum]
    refine Finset.sum_congr rfl ?_
    intro k hk
    rw [entry_smul _ _ hi (by rw [hsq]; exact Finset.mem_range.1 hk),
      entry_ones (Finset.mem_range.1 hk) hj, mul_one]
  have hT4 : ∀ i < X.length, ∀ j < X.length,
      entry (mkMat X.length X.length fun i j =>
        ∑ k in Finset.range X.length,
          entry (mkMat X.length X.length fun i j =>
            ∑ k in Finset.range X.length,
              entry (smul (1 / (X.length : ℚ) ^ 2)
                (ones X.length X.length)) i k * entry X k j) i k
            * entry (ones X.length X.length) k j) i j
      = (1 / (X.length : ℚ) ^ 2)
        * ∑ k in Finset.range X.length, ∑ l in Finset.range X.length,
            entry X l k := by
    intro i hi j hj
    rw [entry_mkMat _ hi hj, Finset.mul_sum]
    refine Finset.sum_congr rfl ?_
    intro k hk
    rw [entry_mkMat _ hi (Finset.mem_range.1 hk),
      entry_ones (Finset.mem_range.1 hk) hj, mul_one, Finset.mul_sum]
    refine Finset.sum_congr rfl ?_
    intro l hl
    rw [entry_smul _ _ (by rw [rows_ones]; exact hi)
        (by rw [cols_ones _ _ hn]; exact Finset.mem_range.1 hl),
      entry_ones hi (Finset.mem_range.1 hl), mul_one]
  unfold matAdd matSub
  rw [show rows X = X.length from rfl, hsq]
  rw [rows_mkMat, cols_mkMat _ _ _ hn, rows_mkMat, cols_mkMat _ _ _ hn]
  refine mkMat_congr ?_
  intro i hi j hj
  rw [entry_mkMat _ hi hj, entry_mkMat _ hi hj, hT1 i hi j hj, hT2 i hi j hj,
    hT4 i hi j hj]
  unfold rowMean colMean grandMean
  rw [Finset.sum_comm]
  have hne : ((X.length : ℚ)) ≠ 0 := by
    exact_mod_cast hn.ne'
  field_simp
  ring

/-- Row sums of the double-centered matrix vanish. -/
theorem centered_row_sum (X : List (List ℚ)) (hn : 0 < X.length) :
    ∀ i < X.length, ∑ j in Finset.range X.length,
      entry (mkMat X.length X.length fun i j =>
        entry X i j - rowMean X i - colMean X j + grandMean X) i j = 0 := by
  intro i hi
  have hent : ∀ j ∈ Finset.range X.length,
      entry (mkMat X.length X.length fun i j =>
        entry X i j - rowMean X i - colMean X j + grandMean X) i j
      = entry X i j - rowMean X i - colMean X j + grandMean X :=
    fun j hj => entry_mkMat _ hi (Finset.mem_range.1 hj)
  rw [Finset.sum_congr rfl hent, Finset.sum_add_distrib, Finset.sum_sub_distrib,
    Finset.sum_sub_distrib, Finset.sum_const, Finset.sum_const,
    Finset.card_range, nsmul_eq_mul, nsmul_eq_mul]
  unfold rowMean colMean grandMean
  rw [← Finset.sum_div]
  have hcomm : ∑ j in Finset.range X.length, ∑ i2 in Finset.range X.length,
      entry X i2 j
      = ∑ i2 in Finset.range X.length, ∑ j in Finset.range X.length,
          entry X i2 j := Finset.sum_comm
  rw [hcomm]
  have hne : ((X.length : ℚ)) ≠ 0 := by exact_mod_cast hn.ne'
  field_simp
  ring

/-- Column sums of the double-centered matrix vanish. -/
theorem centered_col_sum (X : List (List ℚ)) (hn : 0 < X.length) :
    ∀ j < X.length, ∑ i in Finset.range X.length,
      entry (mkMat X.length X.length fun i j =>
        entry X i j - rowMean X i - colMean X j + grandMean X) i j = 0 := by
  intro j hj
  have hent : ∀ i ∈ Finset.range X.length,
      entry (mkMat X.length X.length fun i j =>
        entry X i j - rowMean X i - colMean X j + grandMean X) i j
      = entry X i j - rowMean X i - colMean X j + grandMean X :=
    fun i hi => entry_mkMat _ (Finset.mem_range.1 hi) hj
  rw [Finset.sum_congr rfl hent, Finset.sum_add_distrib, Finset.sum_sub_distrib,
    Finset.sum_sub_distrib, Finset.sum_const, Finset.sum_const,
    Finset.card_range, nsmul_eq_mul, nsmul_eq_mul]
  unfold rowMean colMean grandMean
  rw [← Finset.sum_div]
  have hne : ((X.length : ℚ)) ≠ 0 := by exact_mod_cast hn.ne'
  field_simp
  ring

/-- The length (row count) of a successful `center` output. -/
theorem center_out_length (X : List (List ℚ)) (hn : 0 < X.length)
    (hsq : cols X = X.length) {C : List (List ℚ)} (hC : center X = .ok C) :
    C.length = X.length ∧ cols C = C.length := by
  have hco := center_ok X hn hsq
  rw [hC] at hco
  have hCeq : C = mkMat X.length X.length fun i j =>
      entry X i j - rowMean X i - colMean X j + grandMean X := Except.ok.inj hco
  constructor
  · rw [hCeq]
    exact rows_mkMat _ _ _
  · rw [hCeq, cols_mkMat _ _ _ hn]
    exact (rows_mkMat _ _ _).symm

/-- Re-centering a centered matrix changes nothing: the helper behind the
idempotence claim. -/
theorem center_idem_aux (X : List (List ℚ)) (hn : 0 < X.length)
    (hsq : cols X = X.length) {C : List (List ℚ)} (hC : center X = .ok C) :
    center C = .ok C := by
  have hco := center_ok X hn hsq
  rw [hC] at hco
  have hCeq : C = mkMat X.length X.length fun i j =>
      entry X i j - rowMean X i - colMean X j + grandMean X := Except.ok.inj hco
  obtain ⟨hClen, hCcols⟩ := center_out_length X hn hsq hC
  have hCn : 0 < C.length := by rw [hClen]; exact hn
  have hrm : ∀ i < X.length, rowMean C i = 0 := by
    intro i hi
    unfold rowMean
    rw [hClen]
    have hsum0 : ∑ j in Finset.range X.length, entry C i j = 0 := by
      rw [hCeq]
      exact centered_row_sum X hn i hi
    rw [hsum0, zero_div]
  have hcm : ∀ j < X.length, colMean C j = 0 := by
    intro j hj
    unfold colMean
    rw [hClen]
    have hsum0 : ∑ i in Finset.range X.length, entry C i j = 0 := by
      rw [hCeq]
      exact centered_col_sum X hn j hj
    rw [hsum0, zero_div]
  have hgm : grandMean C = 0 := by
    unfold grandMean
    rw [hClen]
    have h0 : ∑ i in Finset.range X.length,
        ∑ j in Finset.range X.length, entry C i j = 0 := by
      refine Finset.sum_eq_zero ?_
      intro i hi
      rw [hCeq]
      exact centered_row_sum X hn i (Finset.mem_range.1 hi)
    rw [h0, zero_div]
  rw [center_ok C hCn hCcols]
  congr 1
  rw [hClen]
  refine Eq.trans (mkMat_congr ?_) hCeq.symm
  intro i hi j hj
  rw [hrm i hi, hcm j hj, hgm, sub_zero, sub_zero, add_zero, hCeq,
    entry_mkMat _ hi hj]

/-- `center` on a non-square matrix (with at least one row): the first
product `((1/n)*O) @ X` succeeds (its inner dimensions agree for any column
count), and the computation then dies with torch's shape-mismatch error at
the second product `((1/n)*X) @ O` — not at an upfront precondition
check, which the code does not have. -/
theorem center_nonsquare (X : List (List ℚ)) (hn : 0 < X.length)
    (hsq : cols X ≠ X.length) : center X = .error .shapeMismatch := by
  unfold center
  rw [if_neg (by omega)]
  have h01 : matMul (smul (1 / (X.length : ℚ)) (ones X.length X.length)) X
      = .ok (mkMat X.length (cols X) fun i j =>
        ∑ k in Finset.range X.length,
          entry (smul (1 / (X.length : ℚ)) (ones X.length X.length)) i k
            * entry X k j) := by
    rw [matMul_ok (by rw [cols_smul _ _ (by rw [rows_ones]; exact hn),
      cols_ones _ _ hn]; rfl)]
    rw [rows_smul, rows_ones]
    rfl
  show (matMul (smul (1 / (X.length : ℚ)) (ones X.length X.length)) X).bind _
      = _
  rw [h01]
  show (matMul (smul (1 / (X.length : ℚ)) X) (ones X.length X.length)).bind _
      = _
  have h02 : matMul (smul (1 / (X.length : ℚ)) X) (ones X.length X.length)
      = .error .shapeMismatch := by
    unfold matMul
    rw [if_neg]
    rw [cols_smul _ _ hn, rows_ones]
    exact hsq
  rw [h02]
  rfl

/-! ### The claims -/

/-- C1: for every one-dimensional real vector `v` of length `n ≥ 1` and
every strictly positive scalar `z`, `project(v, z)` returns the Euclidean
projection of `v` onto `{w : ∑ᵢ wᵢ = z, wᵢ ≥ 0}`: the output has length
`n`, every entry is non-negative, the entries sum to exactly `z`, and the
output is Euclidean-nearest to `v` among all such vectors — for every
admissible pivot oracle. -/
theorem C1_project_euclidean_projection (v : List ℚ) (z : ℚ)
    (pick : Finset ℕ → ℕ) (hz : 0 < z) (hv : v ≠ []) :
    ∃ w : List ℚ, project (.vec v) z pick = .ok w ∧
      w.length = v.length ∧ (∀ x ∈ w, 0 ≤ x) ∧ w.sum = z ∧
      ∀ u : List ℚ, u.length = v.length → (∀ x ∈ u, 0 ≤ x) → u.sum = z →
        sqDist v w ≤ sqDist v u := by
  obtain ⟨θ, hok, hsum⟩ := project_ok_form v z pick hz hv
  refine ⟨_, hok, by simp, map_max_nonneg v θ, map_max_sum v θ z hsum, ?_⟩
  intro u hlen hnn husum
  exact clip_nearest v θ z hsum u hlen hnn husum

theorem C1_witness :
    (0 : ℚ) < 1 ∧ ([3, 1, 2] : List ℚ) ≠ [] ∧
      (∃ w : List ℚ, project (.vec [3, 1, 2]) 1 (fun _ => 0) = .ok w ∧
        w.length = ([3, 1, 2] : List ℚ).length ∧ (∀ x ∈ w, 0 ≤ x) ∧
        w.sum = 1 ∧
        ∀ u : List ℚ, u.length = ([3, 1, 2] : List ℚ).length →
          (∀ x ∈ u, 0 ≤ x) → u.sum = 1 →
            sqDist [3, 1, 2] w ≤ sqDist [3, 1, 2] u) :=
  ⟨zero_lt_one, by simp,
    C1_project_euclidean_projection [3, 1, 2] 1 (fun _ => 0) zero_lt_one
      (by simp)⟩

/-- C2 counterexample: on the non-square 1×2 matrix `[[1, 2]]`, `center`
fails with the matrix-product shape-mismatch error (torch's `RuntimeError`
from `X @ O`), which is not the `InvalidShape` precondition error of the
specification's taxonomy, and the failure happens only after the first
product `O @ X` has already been computed successfully — the code performs
no upfront squareness check. -/
theorem C2_counterexample :
    center [[1, 2]] = .error .shapeMismatch ∧
      Err.shapeMismatch ≠ Err.invalidShape ∧
      ∃ T, matMul (smul (1 / (([[1, 2]] : List (List ℚ)).length : ℚ))
        (ones 1 1)) [[1, 2]] = .ok T := by
  refine ⟨center_nonsquare [[1, 2]] (by simp) (by simp [cols]), by simp, ?_⟩
  refine ⟨_, matMul_ok ?_⟩
  simp [cols, rows, smul, mkMat, ones, List.range_succ]

/-- C2 amended: for every non-square matrix `X` with at least one row
(rows ≠ columns), `center(X)` does fail, but with the shape-mismatch error
raised by the matrix product `X @ O` partway through the computation —
after the product `O @ X` has already succeeded — and not with an upfront
`InvalidShape` precondition check, which the code does not contain. -/
theorem C2_center_nonsquare_fails (X : List (List ℚ)) (hn : 0 < X.length)
    (hsq : cols X ≠ X.length) :
    center X = .error .shapeMismatch ∧
      ∃ T, matMul (smul (1 / (X.length : ℚ)) (ones X.length X.length)) X
        = .ok T := by
  refine ⟨center_nonsquare X hn hsq, ?_⟩
  refine ⟨_, matMul_ok ?_⟩
  rw [cols_smul _ _ (by rw [rows_ones]; exact hn), cols_ones _ _ hn]
  rfl

theorem C2_witness :
    0 < ([[1, 2]] : List (List ℚ)).length ∧
      cols [[1, 2]] ≠ ([[1, 2]] : List (List ℚ)).length ∧
      (center [[1, 2]] = .error .shapeMismatch ∧
        ∃ T, matMul (smul (1 / (([[1, 2]] : List (List ℚ)).length : ℚ))
          (ones ([[1, 2]] : List (List ℚ)).length
            ([[1, 2]] : List (List ℚ)).length)) [[1, 2]] = .ok T) :=
  ⟨by simp, by simp [cols],
    C2_center_nonsquare_fails [[1, 2]] (by simp) (by simp [cols])⟩

/-- C3: for every valid one-dimensional vector and every `z > 0`, the
result of `project` agrees with the deterministic sort-based reference
projection, for every pivot oracle — so the output is independent of the
random pivot sequence and equals the reference implementation's output
(exactly, over `ℚ`). -/
theorem C3_project_eq_sortRef (v : List ℚ) (z : ℚ) (pick : Finset ℕ → ℕ)
    (hz : 0 < z) (hv : v ≠ []) :
    project (.vec v) z pick = .ok (sortRef v z) := by
  obtain ⟨θ, hok, hsum⟩ := project_ok_form v z pick hz hv
  have href := sortRef_theta_sum v z hz hv
  have hθ : θ = refTheta v z := theta_unique hz hsum href
  rw [hok, hθ]
  rfl

theorem C3_witness :
    (0 : ℚ) < 1 ∧ ([3, 1, 2] : List ℚ) ≠ [] ∧
      project (.vec [3, 1, 2]) 1 (fun _ => 0) = .ok (sortRef [3, 1, 2] 1) :=
  ⟨zero_lt_one, by simp,
    C3_project_eq_sortRef [3, 1, 2] 1 (fun _ => 0) zero_lt_one (by simp)⟩

/-- C4: `project` fails with `InvalidShape` exactly when the input is not
one-dimensional (checked first, even when `z` is also bad), fails with
`InvalidTarget` exactly when `z ≤ 0`, and has no other failure mode on
valid input (a vector of length `n ≥ 1`, per the data model): any
successful call implies the input was one-dimensional and `z > 0`. -/
theorem C4_project_error_taxonomy :
    (∀ (m : List (List ℚ)) (z : ℚ) (pick : Finset ℕ → ℕ),
      project (.mat m) z pick = .error .invalidShape) ∧
    (∀ (v : List ℚ) (z : ℚ) (pick : Finset ℕ → ℕ), z ≤ 0 →
      project (.vec v) z pick = .error .invalidTarget) ∧
    (∀ (m : List (List ℚ)) (z : ℚ) (pick : Finset ℕ → ℕ), z ≤ 0 →
      project (.mat m) z pick = .error .invalidShape) ∧
    (∀ (v : List ℚ) (z : ℚ) (pick : Finset ℕ → ℕ), 0 < z → v ≠ [] →
      ∃ w, project (.vec v) z pick = .ok w) ∧
    (∀ (t : Tensor) (z : ℚ) (pick : Finset ℕ → ℕ) (w : List ℚ),
      project t z pick = .ok w → t.dim = 1 ∧ 0 < z) := by
  have h1 : ∀ (m : List (List ℚ)) (z : ℚ) (pick : Finset ℕ → ℕ),
      project (.mat m) z pick = .error .invalidShape := by
    intro m z pick
    simp [project, Tensor.dim]
  have h2 : ∀ (v : List ℚ) (z : ℚ) (pick : Finset ℕ → ℕ), z ≤ 0 →
      project (.vec v) z pick = .error .invalidTarget := by
    intro v z pick hz
    simp [project, Tensor.dim, hz]
  have h4 : ∀ (v : List ℚ) (z : ℚ) (pick : Finset ℕ → ℕ), 0 < z → v ≠ [] →
      ∃ w, project (.vec v) z pick = .ok w := by
    intro v z pick hz hv
    obtain ⟨θ, hok, _⟩ := project_ok_form v z pick hz hv
    exact ⟨_, hok⟩
  refine ⟨h1, h2, fun m z pick _ => h1 m z pick, h4, ?_⟩
  intro t z pick w hok
  cases t with
  | vec v =>
      refine ⟨rfl, ?_⟩
      by_contra hz0
      rw [h2 v z pick (not_lt.1 hz0)] at hok
      exact absurd hok (by simp)
  | mat m =>
      rw [h1 m z pick] at hok
      exact absurd hok (by simp)

theorem C4_witness :
    project (.vec [1, 2]) 0 (fun _ => 0) = .error .invalidTarget :=
  C4_project_error_taxonomy.2.1 [1, 2] 0 (fun _ => 0) le_rfl

/-- C5: for every square `n × n` matrix with `n ≥ 1`, `center` (defined in
the source by the all-ones-matrix formula
`X - (1/n)·J·X - (1/n)·X·J + (1/n²)·J·X·J`) succeeds, preserves the shape,
and each output entry equals `X[i][j] - rowMean[i] - colMean[j] +
grandMean`. -/
theorem C5_center_formula (X : List (List ℚ)) (hn : 0 < X.length)
    (hsq : cols X = X.length) :
    ∃ C, center X = .ok C ∧ C.length = X.length ∧ cols C = X.length ∧
      ∀ i < X.length, ∀ j < X.length,
        entry C i j = entry X i j - rowMean X i - colMean X j + grandMean X := by
  refine ⟨_, center_ok X hn hsq, rows_mkMat _ _ _, cols_mkMat _ _ _ hn, ?_⟩
  intro i hi j hj
  exact entry_mkMat _ hi hj

theorem C5_witness :
    0 < ([[1, 2], [3, 4]] : List (List ℚ)).length ∧
      cols [[1, 2], [3, 4]] = ([[1, 2], [3, 4]] : List (List ℚ)).length ∧
      (∃ C, center [[1, 2], [3, 4]] = .ok C ∧
        C.length = ([[1, 2], [3, 4]] : List (List ℚ)).length ∧
        cols C = ([[1, 2], [3, 4]] : List (List ℚ)).length ∧
        ∀ i < ([[1, 2], [3, 4]] : List (List ℚ)).length,
          ∀ j < ([[1, 2], [3, 4]] : List (List ℚ)).length,
            entry C i j = entry [[1, 2], [3, 4]] i j
              - rowMean [[1, 2], [3, 4]] i - colMean [[1, 2], [3, 4]] j
              + grandMean [[1, 2], [3, 4]]) :=
  ⟨by simp, by simp [cols],
    C5_center_formula [[1, 2], [3, 4]] (by simp) (by simp [cols])⟩

/-- C6: for every square matrix, every row and every column of the centered
output sums to exactly zero; in particular `center [[5]] = [[0]]`. -/
theorem C6_center_row_col_sums :
    (∀ X : List (List ℚ), 0 < X.length → cols X = X.length →
      ∀ C, center X = .ok C →
        (∀ i < X.length, ∑ j in Finset.range X.length, entry C i j = 0) ∧
        (∀ j < X.length, ∑ i in Finset.range X.length, entry C i j = 0)) ∧
    center [[(5 : ℚ)]] = .ok [[0]] := by
  constructor
  · intro X hn hsq C hC
    have hco := center_ok X hn hsq
    rw [hC] at hco
    have hCeq := Except.ok.inj hco
    constructor
    · intro i hi
      rw [hCeq]
      exact centered_row_sum X hn i hi
    · intro j hj
      rw [hCeq]
      exact centered_col_sum X hn j hj
  · norm_num [center, mkMat, matSub, matAdd, matMul, smul, ones, rows, cols,
      entry, List.range_succ, Finset.sum_range_succ, Except.bind, Except.map]

theorem C6_witness :
    ∑ j in Finset.range ([[(5 : ℚ)]] : List (List ℚ)).length,
      entry [[(0 : ℚ)]] 0 j = 0 :=
  (C6_center_row_col_sums.1 [[(5 : ℚ)]] (by simp) (by simp [cols])
    [[(0 : ℚ)]] C6_center_row_col_sums.2).1 0 (by simp)

/-- C7: `project` is idempotent under re-projection: re-projecting the
output of a successful projection (with any pivot oracle for either call)
returns the output unchanged, because it already lies on the simplex of
mass `z`. -/
theorem C7_project_idempotent (v : List ℚ) (z : ℚ)
    (pick pick2 : Finset ℕ → ℕ) (hz : 0 < z) (hv : v ≠ []) :
    (project (.vec v) z pick).bind (fun w => project (.vec w) z pick2)
      = project (.vec v) z pick := by
  obtain ⟨θ, hok, hsum⟩ := project_ok_form v z pick hz hv
  rw [hok]
  show project (.vec (v.map fun x => max (x - θ) 0)) z pick2 = _
  set w : List ℚ := v.map fun x => max (x - θ) 0 with hweq
  have hwlen : w.length = v.length := by rw [hweq]; simp
  have hwne : w ≠ [] := by
    intro h0
    apply hv
    apply List.length_eq_zero.1
    rw [← hwlen, h0]
    rfl
  have hwnn : ∀ x ∈ w, 0 ≤ x := hweq ▸ map_max_nonneg v θ
  have hwsum : w.sum = z := hweq ▸ map_max_sum v θ z hsum
  obtain ⟨θ2, hok2, hsum2⟩ := project_ok_form w z pick2 hz hwne
  have hzero : ∑ i in Finset.range w.length, max (w.getD i 0 - 0) 0 = z := by
    have hfix : ∀ i ∈ Finset.range w.length,
        max (w.getD i 0 - 0) 0 = w.getD i 0 := by
      intro i hi
      rw [sub_zero]
      refine max_eq_left ?_
      rw [List.getD_eq_getElem _ _ (Finset.mem_range.1 hi)]
      exact hwnn _ (List.getElem_mem (Finset.mem_range.1 hi))
    rw [Finset.sum_congr rfl hfix, ← list_sum_eq_range_sum]
    exact hwsum
  have hθ2 : θ2 = 0 := theta_unique hz hsum2 hzero
  rw [hok2, hθ2]
  congr 1
  have hfix2 : ∀ x ∈ w, max (x - 0) 0 = id x := by
    intro x hx
    rw [sub_zero]
    exact max_eq_left (hwnn x hx)
  rw [List.map_congr_left hfix2, List.map_id]

theorem C7_witness :
    (0 : ℚ) < 1 ∧ ([3, 1, 2] : List ℚ) ≠ [] ∧
      (project (.vec [3, 1, 2]) 1 (fun _ => 0)).bind
        (fun w => project (.vec w) 1 (fun _ => 1))
      = project (.vec [3, 1, 2]) 1 (fun _ => 0) :=
  ⟨zero_lt_one, by simp,
    C7_project_idempotent [3, 1, 2] 1 (fun _ => 0) (fun _ => 1) zero_lt_one
      (by simp)⟩

/-- C8: one iteration of the partition loop always shrinks the working set:
the pivot's own index lands in `G` (because `G` uses `≥`), never in `L`,
so both continuations `L` and `G \ {k}` have strictly smaller cardinality
than `U` — also for all-equal input vectors. -/
theorem C8_partition_step_decreases (v : List ℚ) (pick : Finset ℕ → ℕ)
    (U : Finset ℕ) (h : U.Nonempty) :
    pivot pick U h ∈ Gset v U (pivot pick U h) ∧
    pivot pick U h ∉ Lset v U (pivot pick U h) ∧
    (Lset v U (pivot pick U h)).card < U.card ∧
    ((Gset v U (pivot pick U h)).erase (pivot pick U h)).card < U.card := by
  have hkU := pivot_mem pick U h
  refine ⟨pivot_mem_Gset hkU, pivot_not_mem_Lset, ?_, ?_⟩
  · exact Finset.card_lt_card
      ((Finset.ssubset_iff_of_subset (Lset_subset v U _)).2
        ⟨_, hkU, pivot_not_mem_Lset⟩)
  · calc ((Gset v U (pivot pick U h)).erase (pivot pick U h)).card
        < (Gset v U (pivot pick U h)).card :=
          Finset.card_erase_lt_of_mem (pivot_mem_Gset hkU)
      _ ≤ U.card := Finset.card_le_card (Gset_subset v U _)

theorem C8_witness :
    pivot (fun _ => 0) {0} (Finset.singleton_nonempty 0)
      ∈ Gset [1, 1] {0} (pivot (fun _ => 0) {0} (Finset.singleton_nonempty 0)) ∧
    pivot (fun _ => 0) {0} (Finset.singleton_nonempty 0)
      ∉ Lset [1, 1] {0} (pivot (fun _ => 0) {0} (Finset.singleton_nonempty 0)) ∧
    (Lset [1, 1] {0}
      (pivot (fun _ => 0) {0} (Finset.singleton_nonempty 0))).card
      < ({0} : Finset ℕ).card ∧
    ((Gset [1, 1] {0}
      (pivot (fun _ => 0) {0} (Finset.singleton_nonempty 0))).erase
        (pivot (fun _ => 0) {0} (Finset.singleton_nonempty 0))).card
      < ({0} : Finset ℕ).card :=
  C8_partition_step_decreases [1, 1] (fun _ => 0) {0}
    (Finset.singleton_nonempty 0)

/-- C9: when the partition loop exits, the accepted count `p` is at least 1
for every valid input vector (length ≥ 1) and every `z > 0`, so
`theta = (s - z) / p` never divides by zero and `project` succeeds. -/
theorem C9_loop_count_positive (v : List ℚ) (z : ℚ) (pick : Finset ℕ → ℕ)
    (hz : 0 < z) (hv : v ≠ []) :
    1 ≤ (simplexLoop v z pick (Finset.range v.length) 0 0).2 ∧
      ∃ w, project (.vec v) z pick = .ok w := by
  obtain ⟨hp, _⟩ := loop_theta v z pick hz hv
  obtain ⟨θ, hok, _⟩ := project_ok_form v z pick hz hv
  exact ⟨hp, _, hok⟩

theorem C9_witness :
    (0 : ℚ) < 1 ∧ ([2, 2, 2] : List ℚ) ≠ [] ∧
      (1 ≤ (simplexLoop [2, 2, 2] 1 (fun _ => 0)
        (Finset.range ([2, 2, 2] : List ℚ).length) 0 0).2 ∧
      ∃ w, project (.vec [2, 2, 2]) 1 (fun _ => 0) = .ok w) :=
  ⟨zero_lt_one, by simp,
    C9_loop_count_positive [2, 2, 2] 1 (fun _ => 0) zero_lt_one (by simp)⟩

/-- C10: `center` is idempotent: re-centering the output of `center` on any
square matrix returns it unchanged (double-centering is a projection). -/
theorem C10_center_idempotent (X : List (List ℚ)) (hn : 0 < X.length)
    (hsq : cols X = X.length) :
    (center X).bind center = center X := by
  rw [center_ok X hn hsq]
  show center _ = _
  exact center_idem_aux X hn hsq (center_ok X hn hsq)

theorem C10_witness :
    0 < ([[1, 2], [3, 4]] : List (List ℚ)).length ∧
      cols [[1, 2], [3, 4]] = ([[1, 2], [3, 4]] : List (List ℚ)).length ∧
      (center [[1, 2], [3, 4]]).bind center = center [[1, 2], [3, 4]] :=
  ⟨by simp, by simp [cols],
    C10_center_idempotent [[1, 2], [3, 4]] (by simp) (by simp [cols])⟩

end Hibachi
